import Mathlib

/-!
Verification of the object-storage file-manager core of this repository
(`app/s3_service.py` and `app/main.py`).

The storage provider (AWS S3, reached through boto3) is an external
collaborator of the repository; its primitive calls are modelled here from
the specification (delimiter grouping, paginated listing, bulk delete,
server-side copy, idempotent single delete).  The contents of one bucket are
modelled as the list of keys present in it: the code under verification
never inspects object bodies, so keys suffice, and the bucket name merely
selects which store an operation acts on.  Each provider call takes an
explicit `Option ClientError` fault argument: `some e` means the provider
raised a `ClientError` of kind `e` on that call, `none` means the call
itself did not fault (it may still fail deterministically, e.g. copying a
missing source key).
-/

/-- A botocore `ClientError`, abstracted to the error kinds the spec names. -/
inductive ClientError where
  | noSuchKey
  | noSuchBucket
  | accessDenied
  | transient
deriving DecidableEq

/-- The contents of one bucket: the list of keys present in it. -/
abbrev Store := List String

/-- Modelled from the spec: provider listing with `Prefix=pre` returns the
keys that start with `pre` (character-wise). -/
def keyStartsWith (pre k : String) : Bool := pre.toList.isPrefixOf k.toList

/-- Store a key: overwriting an existing key leaves the key set unchanged,
a new key is appended. -/
def insertKey (k : String) (st : Store) : Store := if k ∈ st then st else st ++ [k]

/-- Modelled from the spec: the provider `put_object` call, which uploads or
overwrites the object at `key` (a zero-byte object when no body is given,
as in `create_folder`). -/
def putObject (fault : Option ClientError) (st : Store) (key : String) :
    Except ClientError Store :=
  match fault with
  | some e => .error e
  | none => .ok (insertKey key st)

/-- Modelled from the spec: the provider `copy_object` call — server-side
copy; fails with `NoSuchKey` when the source key is absent. -/
def copyObject (fault : Option ClientError) (st : Store) (srcKey dstKey : String) :
    Except ClientError Store :=
  match fault with
  | some e => .error e
  | none =>
    if srcKey ∈ st then .ok (insertKey dstKey st) else .error ClientError.noSuchKey

/-- Modelled from the spec: the provider `delete_object` call — idempotent,
deleting an absent key succeeds silently. -/
def deleteObject (fault : Option ClientError) (st : Store) (key : String) :
    Except ClientError Store :=
  match fault with
  | some e => .error e
  | none => .ok (st.filter (fun k => decide (k ≠ key)))

/-- Modelled from the spec: the provider bulk `delete_objects` call —
removes every listed key in one request. -/
def deleteObjectsBatch (st : Store) (keys : List String) : Store :=
  st.filter (fun k => decide (k ∉ keys))

/-- The characters of a key remainder up to and including the first `'/'`
(delimiter grouping: together with the queried path this forms the
`CommonPrefix` entry). -/
def upToSlash : List Char → List Char
  | [] => []
  | c :: cs => if c = '/' then [c] else c :: upToSlash cs

/-- The remainder of key `k` after the queried path `pre`. -/
def restAfter (pre k : String) : List Char := k.toList.drop pre.toList.length

/-- One page of a provider `list_objects_v2` response. -/
structure ListPage where
  commonPrefixes : List String
  contents : List String
deriving DecidableEq

/-- Modelled from the spec: one page of the delimited `list_objects_v2`
listing with `Delimiter="/"`.  Of the (at most `maxKeys`) stored keys that
start with `pre`, those whose remainder contains no further `'/'` are
returned in `Contents`; the others are grouped, deduplicated, into
`CommonPrefixes`, each cut just after the next `'/'`. -/
def listObjectsV2Page (maxKeys : Nat) (st : Store) (pre : String) : ListPage :=
  let matching := (st.filter (fun k => keyStartsWith pre k)).take maxKeys
  { commonPrefixes :=
      (matching.filterMap (fun k =>
        if (restAfter pre k).contains '/' then
          some (String.mk (pre.toList ++ upToSlash (restAfter pre k)))
        else none)).dedup,
    contents := matching.filter (fun k => !((restAfter pre k).contains '/')) }

/-- `list_objects` (s3_service.py, lines 45-81): one non-paginated delimited
listing.  The `CommonPrefixes` become `folders`; the keys in `Contents`
other than the queried path itself become `files`.  A `ClientError` is
caught, printed, and the empty accumulators are returned. -/
def list_objects (fault : Option ClientError) (maxKeys : Nat) (st : Store) (pre : String) :
    List String × List String :=
  match fault with
  | some _ => ([], [])
  | none =>
    let resp := listObjectsV2Page maxKeys st pre
    (resp.commonPrefixes, resp.contents.filter (fun k => decide (k ≠ pre)))

/-- `delete_file` (s3_service.py, lines 171-185): provider `delete_object`
wrapped so that a `ClientError` is caught and `False` returned. -/
def delete_file (fault : Option ClientError) (st : Store) (key : String) : Bool × Store :=
  match deleteObject fault st key with
  | .ok st1 => (true, st1)
  | .error _ => (false, st)

/-- `copy_file` (s3_service.py, lines 217-235): provider `copy_object`
wrapped so that a `ClientError` is caught and `False` returned. -/
def copy_file (fault : Option ClientError) (st : Store) (srcKey dstKey : String) :
    Bool × Store :=
  match copyObject fault st srcKey dstKey with
  | .ok st1 => (true, st1)
  | .error _ => (false, st)

/-- Python `str.endswith` on the character lists of the two strings. -/
def pyEndsWith (s suf : String) : Bool := suf.toList.isSuffixOf s.toList

/-- `create_folder` (s3_service.py, lines 192-210): append `"/"` to the
folder path when absent, then `put_object` with no body; a `ClientError`
is caught and `False` returned. -/
def create_folder (fault : Option ClientError) (st : Store) (folderPath : String) :
    Bool × Store :=
  let fp := if pyEndsWith folderPath "/" then folderPath else folderPath ++ "/"
  match putObject fault st fp with
  | .ok st1 => (true, st1)
  | .error _ => (false, st)

/-- `move_file` (s3_service.py, lines 242-254): calls `copy_file` then
`delete_file`, discarding both boolean results, and returns `True`.  The
surrounding `try/except ClientError` of the source is unreachable, because
`copy_file` and `delete_file` each catch `ClientError` themselves. -/
def move_file (copyFault deleteFault : Option ClientError) (st : Store)
    (srcKey dstKey : String) : Bool × Store :=
  (true, (delete_file deleteFault (copy_file copyFault st srcKey dstKey).2 srcKey).2)

/-- Helper for `chunkList`: structural recursion on a fuel bound that is at
least the length of the list, so that the definition evaluates by kernel
reduction. -/
def chunkAux {α : Type} (n : Nat) : Nat → List α → List (List α)
  | _, [] => []
  | 0, _ :: _ => []
  | fuel + 1, a :: l => (a :: l).take n :: chunkAux n fuel (l.drop (n - 1))

/-- One run of the provider paginator: successive pages of at most `n` keys
(`n` is the provider page size, at most 1000) covering the whole listing
snapshot. -/
def chunkList {α : Type} (n : Nat) (l : List α) : List (List α) :=
  chunkAux n l.length l

/-- The page loop of `delete_folder`: for each page that has contents, one
bulk `delete_objects` call is issued with exactly that page of keys.  The
`faults` list gives the outcome of each successive `delete_objects` call
(missing entries mean no fault); the first `some e` escapes as an uncaught
`ClientError` — first component `some e` — leaving the deletions already
performed by the earlier batches in place.  The third component accumulates
the issued batches. -/
def deleteFolderGo :
    List (Option ClientError) → List (List String) → Store → List (List String) →
      Option ClientError × Store × List (List String)
  | _, [], st, bs => (none, st, bs)
  | faults, page :: rest, st, bs =>
    if page = [] then deleteFolderGo faults rest st bs
    else
      match faults.head?.getD none with
      | some e => (some e, st, bs)
      | none => deleteFolderGo (faults.drop 1) rest (deleteObjectsBatch st page) (bs ++ [page])

/-- `delete_folder` (s3_service.py, lines 257-269): paginate over every key
under `folderPre` (the paginator follows all continuation tokens, so its
pages jointly cover the listing snapshot) and issue one bulk
`delete_objects` call per page with contents.  Unlike the other gateway
operations there is no `try/except` and no boolean result. -/
def delete_folder (faults : List (Option ClientError)) (pageSize : Nat) (st : Store)
    (folderPre : String) : Option ClientError × Store × List (List String) :=
  deleteFolderGo faults (chunkList pageSize (st.filter (fun k => keyStartsWith folderPre k))) st []

/-- Python `str.rstrip("/")`: drop every trailing `'/'`. -/
def rstripSlash (l : List Char) : List Char :=
  (l.reverse.dropWhile (fun c => decide (c = '/'))).reverse

/-- Python `str.strip("/")`: drop leading and trailing `'/'` (right-strip
first, then drop the leading run — the order does not matter). -/
def stripSlash (l : List Char) : List Char :=
  (rstripSlash l).dropWhile (fun c => decide (c = '/'))

/-- Python `str.split("/")`: split on every `'/'`; the empty string splits
to `[""]`, and empty segments are kept. -/
def splitSlash : List Char → List (List Char)
  | [] => [[]]
  | c :: cs =>
    if c = '/' then [] :: splitSlash cs
    else
      match splitSlash cs with
      | [] => [[c]]
      | g :: gs => (c :: g) :: gs

/-- Python `"/".join(...)` on character-list segments. -/
def joinSlash : List (List Char) → List Char
  | [] => []
  | [g] => g
  | g :: gs => g ++ '/' :: joinSlash gs

/-- `view_bucket` breadcrumbs (main.py, line 70): Python
`prefix.strip("/").split("/") if prefix else []`. -/
def breadcrumbs (p : String) : List String :=
  if p = "" then [] else (splitSlash (stripSlash p.toList)).map String.mk

/-- `view_bucket` parent path (main.py, lines 73-75): Python
`"/".join(prefix.rstrip("/").split("/")[:-1])`, then `"/"` appended when
the join is non-empty. -/
def parent_path (p : String) : String :=
  let joined := joinSlash ((splitSlash (rstripSlash p.toList)).dropLast)
  if joined = [] then "" else String.mk (joined ++ ['/'])

/-- Follows the spec words (section 4.2): the breadcrumb segments,
`split(trim(prefix, "/"), "/")` with empty strings filtered out, as
character lists. -/
def specSegs (p : String) : List (List Char) :=
  (splitSlash (stripSlash p.toList)).filter (fun g => decide (g ≠ []))

/-- Follows the spec words (section 4.2): breadcrumbs with empty segments
filtered out. -/
def breadcrumbs_spec (p : String) : List String := (specSegs p).map String.mk

/-- Follows the spec words (section 4.2): all breadcrumb segments except
the last, joined by `/`, with a trailing `/` appended if non-empty, else
the empty string. -/
def parent_path_spec (p : String) : String :=
  let joined := joinSlash (specSegs p).dropLast
  if joined = [] then "" else String.mk (joined ++ ['/'])

/-! ## Helper lemmas -/

theorem chunkAux_congr {α : Type} (n : Nat) :
    ∀ (fuel : Nat) (l : List α), l.length ≤ fuel → chunkAux n fuel l = chunkAux n l.length l := by
  intro fuel
  induction fuel using Nat.strong_induction_on with
  | _ fuel ih =>
    intro l hl
    cases l with
    | nil => cases fuel <;> rfl
    | cons a l =>
      cases fuel with
      | zero => simp at hl
      | succ fuel =>
        have hlen : l.length ≤ fuel := by simp at hl; omega
        have hdrop : (l.drop (n - 1)).length ≤ l.length := by
          rw [List.length_drop]; omega
        have h1 : chunkAux n fuel (l.drop (n - 1))
            = chunkAux n (l.drop (n - 1)).length (l.drop (n - 1)) :=
          ih fuel (Nat.lt_succ_self fuel) (l.drop (n - 1)) (le_trans hdrop hlen)
        have h2 : chunkAux n l.length (l.drop (n - 1))
            = chunkAux n (l.drop (n - 1)).length (l.drop (n - 1)) :=
          ih l.length (by omega) (l.drop (n - 1)) hdrop
        simp only [List.length_cons, chunkAux]
        rw [h1, h2]

theorem chunkList_cons {α : Type} (n : Nat) (a : α) (l : List α) :
    chunkList n (a :: l) = (a :: l).take n :: chunkList n (l.drop (n - 1)) := by
  show chunkAux n (l.length + 1) (a :: l) = _
  simp only [chunkAux]
  rw [chunkAux_congr n l.length (l.drop (n - 1)) (by rw [List.length_drop]; omega)]
  rfl

theorem chunkList_flatten_aux {α : Type} (n : Nat) (hn : 0 < n) :
    ∀ (N : Nat) (l : List α), l.length ≤ N → (chunkList n l).flatten = l := by
  intro N
  induction N with
  | zero =>
    intro l hl
    cases l with
    | nil => rfl
    | cons a l => simp at hl
  | succ N ih =>
    intro l hl
    cases l with
    | nil => rfl
    | cons a l =>
      rw [chunkList_cons]
      simp only [List.flatten_cons]
      rw [ih (l.drop (n - 1)) (by rw [List.length_drop]; simp at hl; omega)]
      obtain ⟨m, rfl⟩ : ∃ m, n = m + 1 := ⟨n - 1, by omega⟩
      rw [List.take_succ_cons]
      simp only [Nat.add_sub_cancel]
      rw [List.cons_append, List.take_append_drop]

theorem chunkList_flatten {α : Type} (n : Nat) (hn : 0 < n) (l : List α) :
    (chunkList n l).flatten = l :=
  chunkList_flatten_aux n hn l.length l le_rfl

theorem chunkList_mem_aux {α : Type} (n : Nat) (hn : 0 < n) :
    ∀ (N : Nat) (l : List α), l.length ≤ N →
      ∀ b ∈ chunkList n l, b ≠ [] ∧ b.length ≤ n := by
  intro N
  induction N with
  | zero =>
    intro l hl b hb
    cases l with
    | nil => simp [chunkList, chunkAux] at hb
    | cons a l => simp at hl
  | succ N ih =>
    intro l hl b hb
    cases l with
    | nil => simp [chunkList, chunkAux] at hb
    | cons a l =>
      rw [chunkList_cons] at hb
      rcases List.mem_cons.mp hb with hb | hb
      · subst hb
        refine ⟨?_, ?_⟩
        · rw [Ne, List.take_eq_nil_iff]
          rintro (h | h) <;> simp_all
        · rw [List.length_take]; omega
      · exact ih (l.drop (n - 1)) (by rw [List.length_drop]; simp at hl; omega) b hb

theorem chunkList_mem {α : Type} (n : Nat) (hn : 0 < n) (l : List α) :
    ∀ b ∈ chunkList n l, b ≠ [] ∧ b.length ≤ n :=
  chunkList_mem_aux n hn l.length l le_rfl

theorem deleteFolderGo_nofault (pages : List (List String)) :
    ∀ (st : Store) (bs : List (List String)), (∀ b ∈ pages, b ≠ []) →
      deleteFolderGo [] pages st bs
        = (none, pages.foldl deleteObjectsBatch st, bs ++ pages) := by
  induction pages with
  | nil => intro st bs _; simp [deleteFolderGo]
  | cons page rest ih =>
    intro st bs h
    have hne : ¬ page = [] := h page (by simp)
    simp only [deleteFolderGo, if_neg hne]
    show deleteFolderGo [] rest (deleteObjectsBatch st page) (bs ++ [page]) = _
    rw [ih _ _ (fun b hb => h b (by simp [hb]))]
    simp [List.foldl_cons, List.append_assoc]

theorem mem_foldl_deleteObjectsBatch (pages : List (List String)) :
    ∀ (st : Store) (k : String),
      k ∈ pages.foldl deleteObjectsBatch st ↔ k ∈ st ∧ ∀ b ∈ pages, k ∉ b := by
  induction pages with
  | nil => simp
  | cons page rest ih =>
    intro st k
    simp only [List.foldl_cons]
    rw [ih]
    simp only [deleteObjectsBatch, List.mem_filter, decide_eq_true_eq, List.mem_cons]
    constructor
    · rintro ⟨⟨hst, hpage⟩, hrest⟩
      refine ⟨hst, ?_⟩
      intro b hb
      rcases hb with rfl | hb
      · exact hpage
      · exact hrest b hb
    · rintro ⟨hst, hall⟩
      exact ⟨⟨hst, hall page (Or.inl rfl)⟩, fun b hb => hall b (Or.inr hb)⟩

theorem mem_insertKey_self (k : String) (st : Store) : k ∈ insertKey k st := by
  unfold insertKey
  split
  · assumption
  · simp

theorem mem_insertKey (k a : String) (st : Store) : a ∈ insertKey k st ↔ a ∈ st ∨ a = k := by
  unfold insertKey
  split
  · rename_i h
    simp only [iff_self_or]
    rintro rfl
    exact h
  · simp

theorem insertKey_idem (k : String) (st : Store) :
    insertKey k (insertKey k st) = insertKey k st := by
  conv_lhs => rw [insertKey]
  rw [if_pos (mem_insertKey_self k st)]

theorem splitSlash_slash_cons (cs : List Char) :
    splitSlash ('/' :: cs) = [] :: splitSlash cs := by
  simp [splitSlash]

theorem sum_length_le {α : Type} (c : Nat) (L : List (List α))
    (h : ∀ b ∈ L, b.length ≤ c) : (L.map List.length).sum ≤ L.length * c := by
  induction L with
  | nil => simp
  | cons b L ih =>
    simp only [List.map_cons, List.sum_cons, List.length_cons]
    have h1 := h b (by simp)
    have h2 := ih (fun x hx => h x (by simp [hx]))
    calc b.length + (L.map List.length).sum ≤ c + L.length * c := by omega
    _ = (L.length + 1) * c := by ring

theorem delete_folder_nofault (n : Nat) (hn : 0 < n) (st : Store) (pre : String) :
    delete_folder [] n st pre
      = (none,
         (chunkList n (st.filter (fun k => keyStartsWith pre k))).foldl deleteObjectsBatch st,
         chunkList n (st.filter (fun k => keyStartsWith pre k))) := by
  unfold delete_folder
  rw [deleteFolderGo_nofault _ st [] (fun b hb => (chunkList_mem n hn _ b hb).1)]
  simp

theorem mem_delete_folder_result (n : Nat) (hn : 0 < n) (st : Store) (pre k : String) :
    k ∈ (delete_folder [] n st pre).2.1 ↔ k ∈ st ∧ keyStartsWith pre k = false := by
  rw [delete_folder_nofault n hn]
  show k ∈ (chunkList n (st.filter (fun k => keyStartsWith pre k))).foldl deleteObjectsBatch st
      ↔ _
  rw [mem_foldl_deleteObjectsBatch]
  constructor
  · rintro ⟨hst, hall⟩
    refine ⟨hst, ?_⟩
    cases hkp : keyStartsWith pre k with
    | false => rfl
    | true =>
      exfalso
      have hk : k ∈ st.filter (fun k => keyStartsWith pre k) :=
        List.mem_filter.mpr ⟨hst, hkp⟩
      rw [← chunkList_flatten n hn (st.filter (fun k => keyStartsWith pre k))] at hk
      obtain ⟨b, hb, hkb⟩ := List.mem_flatten.mp hk
      exact hall b hb hkb
  · rintro ⟨hst, hfalse⟩
    refine ⟨hst, fun b hb hkb => ?_⟩
    have hk : k ∈ (chunkList n (st.filter (fun k => keyStartsWith pre k))).flatten :=
      List.mem_flatten.mpr ⟨b, hb, hkb⟩
    rw [chunkList_flatten n hn] at hk
    have := List.of_mem_filter hk
    rw [hfalse] at this
    exact Bool.false_ne_true this

theorem deleteFolderGo_cons_ne (faults : List (Option ClientError)) (page : List String)
    (rest : List (List String)) (st : Store) (bs : List (List String)) (h : ¬ page = []) :
    deleteFolderGo faults (page :: rest) st bs
      = match faults.head?.getD none with
        | some e => (some e, st, bs)
        | none =>
          deleteFolderGo (faults.drop 1) rest (deleteObjectsBatch st page) (bs ++ [page]) := by
  simp only [deleteFolderGo, if_neg h]

/-! ## Claim theorems -/

/-- C1: for every bucket and folder path, `delete_folder` follows every
continuation token of the paginated listing (every key under the path lands
in some issued batch) and issues one `delete_objects` call per listed
batch, each batch non-empty and not exceeding the provider bulk-delete
limit of 1000 keys, so that after it completes no object whose key starts
with the path remains (the folder marker included); a folder holding 2500
objects causes at least 3 `delete_objects` calls. -/
theorem delete_folder_paginates_batches_clears (st : Store) (pre : String) (n : Nat)
    (h1 : 0 < n) (h2 : n ≤ 1000) :
    (delete_folder [] n st pre).1 = none ∧
    (∀ k ∈ (delete_folder [] n st pre).2.1, keyStartsWith pre k = false) ∧
    (∀ k ∈ st, keyStartsWith pre k = true → k ∈ (delete_folder [] n st pre).2.2.flatten) ∧
    (∀ b ∈ (delete_folder [] n st pre).2.2, b ≠ [] ∧ b.length ≤ 1000) ∧
    ((st.filter (fun k => keyStartsWith pre k)).length = 2500
      → 3 ≤ (delete_folder [] n st pre).2.2.length) := by
  refine ⟨?_, ?_, ?_, ?_, ?_⟩
  · rw [delete_folder_nofault n h1]
  · intro k hk
    exact ((mem_delete_folder_result n h1 st pre k).mp hk).2
  · intro k hk hpre
    rw [delete_folder_nofault n h1]
    show k ∈ (chunkList n (st.filter (fun k => keyStartsWith pre k))).flatten
    rw [chunkList_flatten n h1]
    exact List.mem_filter.mpr ⟨hk, hpre⟩
  · intro b hb
    rw [delete_folder_nofault n h1] at hb
    have hmem := chunkList_mem n h1 _ b hb
    exact ⟨hmem.1, le_trans hmem.2 h2⟩
  · intro hlen
    rw [delete_folder_nofault n h1]
    show 3 ≤ (chunkList n (st.filter (fun k => keyStartsWith pre k))).length
    have hsum : ((chunkList n (st.filter (fun k => keyStartsWith pre k))).map
        List.length).sum = 2500 := by
      rw [← List.length_flatten, chunkList_flatten n h1, hlen]
    have hbound := sum_length_le 1000 (chunkList n (st.filter (fun k => keyStartsWith pre k)))
      (fun b hb => le_trans (chunkList_mem n h1 _ b hb).2 h2)
    omega

/-- Witness for C1 at a concrete store, folder path and page size. -/
theorem delete_folder_paginates_batches_clears_witness :
    (delete_folder [] 1000 ["a/1.txt", "a/2.txt", "b/c.txt"] "a/").1 = none ∧
    (∀ k ∈ (delete_folder [] 1000 ["a/1.txt", "a/2.txt", "b/c.txt"] "a/").2.1,
      keyStartsWith "a/" k = false) :=
  ⟨(delete_folder_paginates_batches_clears ["a/1.txt", "a/2.txt", "b/c.txt"] "a/" 1000
      (by decide) (by decide)).1,
   (delete_folder_paginates_batches_clears ["a/1.txt", "a/2.txt", "b/c.txt"] "a/" 1000
      (by decide) (by decide)).2.1⟩

/-- C2: for every bucket, every queried path and every provider outcome,
the `files` component returned by `list_objects` never contains a key equal
to the queried path itself (the zero-byte marker of the current folder is
excluded from the file listing). -/
theorem list_objects_files_excludes_current_marker
    (fault : Option ClientError) (maxKeys : Nat) (st : Store) (pre : String) :
    pre ∉ (list_objects fault maxKeys st pre).2 := by
  cases fault with
  | some e => simp [list_objects]
  | none =>
    intro h
    have := List.of_mem_filter h
    simp at this

/-- C3: `move_file` is `copy_object` on the source and destination keys
followed by `delete_object` on the source key, and when both succeed (no
provider fault, source present, distinct keys) it leaves the object present
at the destination key and absent at the source key. -/
theorem move_file_copy_then_delete (st : Store) (src dst : String)
    (hsrc : src ∈ st) (hne : src ≠ dst) :
    (copy_file none st src dst).1 = true ∧
    (delete_file none (copy_file none st src dst).2 src).1 = true ∧
    move_file none none st src dst
      = (true, (delete_file none (copy_file none st src dst).2 src).2) ∧
    dst ∈ (move_file none none st src dst).2 ∧
    src ∉ (move_file none none st src dst).2 := by
  have hcopy : copy_file none st src dst = (true, insertKey dst st) := by
    simp [copy_file, copyObject, if_pos hsrc]
  have hmove : (move_file none none st src dst).2
      = (insertKey dst st).filter (fun k => decide (k ≠ src)) := by
    show (delete_file none (copy_file none st src dst).2 src).2 = _
    rw [hcopy]
    rfl
  refine ⟨by rw [hcopy], rfl, rfl, ?_, ?_⟩
  · rw [hmove]
    exact List.mem_filter.mpr ⟨mem_insertKey_self dst st, decide_eq_true (Ne.symm hne)⟩
  · rw [hmove]
    intro h
    have := List.of_mem_filter h
    simp at this

/-- Witness for C3 at a concrete store and pair of keys. -/
theorem move_file_copy_then_delete_witness :
    "b/x.txt" ∈ (move_file none none ["a/x.txt"] "a/x.txt" "b/x.txt").2 ∧
    "a/x.txt" ∉ (move_file none none ["a/x.txt"] "a/x.txt" "b/x.txt").2 :=
  ⟨(move_file_copy_then_delete ["a/x.txt"] "a/x.txt" "b/x.txt"
      (by decide) (by decide)).2.2.2.1,
   (move_file_copy_then_delete ["a/x.txt"] "a/x.txt" "b/x.txt"
      (by decide) (by decide)).2.2.2.2⟩

/-- C7: `create_folder` stores the zero-byte marker under `f ++ "/"` when
`f` does not end in `"/"`, stores it under `f` unchanged otherwise, and
recreating an existing marker is a no-op overwrite, so `create_folder` is
idempotent. -/
theorem create_folder_normalizes_idempotent (st : Store) (f : String) :
    (pyEndsWith f "/" = false → create_folder none st f = (true, insertKey (f ++ "/") st)) ∧
    (pyEndsWith f "/" = true → create_folder none st f = (true, insertKey f st)) ∧
    create_folder none (create_folder none st f).2 f = (true, (create_folder none st f).2) := by
  refine ⟨?_, ?_, ?_⟩
  · intro h
    simp [create_folder, putObject, h]
  · intro h
    simp [create_folder, putObject, h]
  · cases h : pyEndsWith f "/" with
    | false => simp [create_folder, putObject, h, insertKey_idem]
    | true => simp [create_folder, putObject, h, insertKey_idem]

/-- Witness for C7 at a concrete folder path without the trailing slash. -/
theorem create_folder_normalizes_idempotent_witness :
    create_folder none [] "docs" = (true, insertKey ("docs" ++ "/") []) :=
  (create_folder_normalizes_idempotent [] "docs").1 (by decide)

/-- C8: `delete_folder` on a path with no objects under it is a successful
no-op that issues no `delete_objects` call, and calling it twice leaves
zero objects under the path after either call. -/
theorem delete_folder_noop_idempotent (st : Store) (pre : String) (n : Nat) (hn : 0 < n) :
    (st.filter (fun k => keyStartsWith pre k) = []
      → delete_folder [] n st pre = (none, st, [])) ∧
    ((delete_folder [] n st pre).2.1.filter (fun k => keyStartsWith pre k) = []) ∧
    delete_folder [] n (delete_folder [] n st pre).2.1 pre
      = (none, (delete_folder [] n st pre).2.1, []) := by
  have hempty : ∀ (s : Store), s.filter (fun k => keyStartsWith pre k) = []
      → delete_folder [] n s pre = (none, s, []) := by
    intro s hs
    unfold delete_folder
    rw [hs]
    rfl
  have hfil : (delete_folder [] n st pre).2.1.filter (fun k => keyStartsWith pre k) = [] := by
    rw [List.filter_eq_nil_iff]
    intro k hk
    have hres := (mem_delete_folder_result n hn st pre k).mp hk
    simp [hres.2]
  exact ⟨hempty st, hfil, hempty _ hfil⟩

/-- Witness for C8 at a concrete store with nothing under the path. -/
theorem delete_folder_noop_idempotent_witness :
    delete_folder [] 5 ["b/x"] "a/" = (none, ["b/x"], []) :=
  (delete_folder_noop_idempotent ["b/x"] "a/" 5 (by decide)).1 (by decide)

/-- C9: when the underlying copy fails with a provider error, `move_file`
nevertheless proceeds to delete the source key and returns `True` — the
failure is swallowed inside `copy_file`, which returns `False` that
`move_file` discards — so a failed move can remove the only copy of the
object. -/
theorem move_file_swallows_copy_failure (e : ClientError) (st : Store) (src dst : String) :
    copy_file (some e) st src dst = (false, st) ∧
    move_file (some e) none st src dst = (true, st.filter (fun k => decide (k ≠ src))) ∧
    (src ∈ st → src ∉ (move_file (some e) none st src dst).2) ∧
    (dst ∉ st → dst ∉ (move_file (some e) none st src dst).2) := by
  refine ⟨rfl, rfl, ?_, ?_⟩
  · intro _ h
    have := List.of_mem_filter h
    simp at this
  · intro hdst h
    exact hdst (List.mem_of_mem_filter h)

/-- Witness for C9: the only copy of the object is removed although the
copy faulted. -/
theorem move_file_swallows_copy_failure_witness :
    "a/x.txt" ∉ (move_file (some ClientError.transient) none ["a/x.txt"]
      "a/x.txt" "b/x.txt").2 :=
  (move_file_swallows_copy_failure ClientError.transient ["a/x.txt"]
    "a/x.txt" "b/x.txt").2.2.1 (by decide)

/-- C4 counterexample: a provider error during `list_objects` is NOT
surfaced distinctly from success — the error outcome `([], [])` is
identical to the outcome of a successful listing of an empty bucket, so
the caller cannot tell the failed operation apart from a success. -/
theorem list_objects_error_counterexample :
    list_objects (some ClientError.transient) 1000 ["a/x.txt"] "" = ([], []) ∧
    list_objects none 1000 [] "" = ([], []) ∧
    list_objects (some ClientError.transient) 1000 ["a/x.txt"] ""
      = list_objects none 1000 [] "" := by
  refine ⟨rfl, by decide, by decide⟩

/-- C4 amended: the core never retries (each provider call has exactly one
outcome per operation); the mutating gateway operations surface a provider
error as a `False` result with the store unchanged, but `list_objects`
swallows provider errors into `([], [])` — indistinguishable from a
successful empty listing — and `move_file` returns `True` regardless of
any provider error in its copy or delete step. -/
theorem error_reporting_amended (e : ClientError) (df : Option ClientError)
    (maxKeys : Nat) (st : Store) (pre key src dst f : String) :
    list_objects (some e) maxKeys st pre = ([], []) ∧
    delete_file (some e) st key = (false, st) ∧
    copy_file (some e) st src dst = (false, st) ∧
    create_folder (some e) st f = (false, st) ∧
    (move_file (some e) df st src dst).1 = true :=
  ⟨rfl, rfl, rfl, rfl, rfl⟩

/-- C5 counterexample: the code does not filter empty segments out of the
breadcrumbs — a doubled slash in the path yields an empty-string
breadcrumb, diverging from the claimed trimmed-split-filtered sequence. -/
theorem breadcrumbs_filtering_counterexample :
    breadcrumbs "a//b/" = ["a", "", "b"] ∧
    breadcrumbs_spec "a//b/" = ["a", "b"] ∧
    breadcrumbs "a//b/" ≠ breadcrumbs_spec "a//b/" := by decide

/-- C5 amended: for every non-empty string the breadcrumb sequence equals
the string with leading and trailing `'/'` trimmed and split on `'/'`,
WITHOUT filtering empty segments (the empty string yields the empty
sequence); filtering the empty segments out of the code breadcrumbs yields
exactly the spec sequence; an empty path yields `[]` and `"docs/images/"`
yields `["docs", "images"]`. -/
theorem breadcrumbs_amended :
    (∀ p : String, (breadcrumbs p).filter (fun s => decide (s ≠ "")) = breadcrumbs_spec p) ∧
    breadcrumbs "" = [] ∧
    breadcrumbs "docs/images/" = ["docs", "images"] := by
  refine ⟨?_, by decide, by decide⟩
  intro p
  by_cases hp : p = ""
  · subst hp
    decide
  · simp only [breadcrumbs, breadcrumbs_spec, specSegs, if_neg hp]
    rw [List.filter_map]
    congr 1
    apply List.filter_congr
    intro g _
    simp only [Function.comp_apply, decide_eq_decide]
    simp [String.ext_iff]

/-- C6 counterexample: under either reading of "breadcrumb segments" the
breadcrumbs of `"/docs/x/"` are `["docs", "x"]`, so the claimed parent path
is `"docs/"`; the code right-strips only and keeps the empty leading
segment, producing `"/docs/"`. -/
theorem parent_path_counterexample :
    breadcrumbs "/docs/x/" = ["docs", "x"] ∧
    breadcrumbs_spec "/docs/x/" = ["docs", "x"] ∧
    parent_path "/docs/x/" = "/docs/" ∧
    parent_path_spec "/docs/x/" = "docs/" ∧
    parent_path "/docs/x/" ≠ parent_path_spec "/docs/x/" := by decide

/-- C6 amended: the parent path equals the path right-trimmed of `'/'`,
split on `'/'`, with the last segment dropped, joined by `'/'`, plus a
trailing `'/'` when that join is non-empty and `""` otherwise; whenever the
right-trimmed split contains no empty segment (no leading or doubled
slash), this agrees with "all breadcrumb segments except the last joined by
`'/'`"; an empty path and a single-segment path both yield `""`. -/
theorem parent_path_amended :
    (∀ p : String, [] ∉ splitSlash (rstripSlash p.toList)
      → parent_path p = parent_path_spec p) ∧
    parent_path "" = "" ∧ parent_path "docs/" = "" ∧ parent_path "docs" = "" := by
  refine ⟨?_, by decide, by decide, by decide⟩
  intro p h
  have hstrip : stripSlash p.toList = rstripSlash p.toList := by
    unfold stripSlash
    cases hc : rstripSlash p.toList with
    | nil => rfl
    | cons c cs =>
      rw [List.dropWhile_cons]
      have hcne : ¬ c = '/' := by
        rintro rfl
        apply h
        rw [hc, splitSlash_slash_cons]
        simp
      simp [hcne]
  have hsegs : specSegs p = splitSlash (rstripSlash p.toList) := by
    unfold specSegs
    rw [hstrip]
    apply List.filter_eq_self.mpr
    intro g hg
    have hgne : g ≠ [] := fun hgnil => h (hgnil ▸ hg)
    simpa using hgne
  unfold parent_path parent_path_spec
  rw [hsegs]

/-- Witness for the C6 amended theorem at a well-formed two-segment path. -/
theorem parent_path_amended_witness :
    parent_path "docs/images/" = parent_path_spec "docs/images/" :=
  parent_path_amended.1 "docs/images/" (by decide)

/-- C10: unlike the other gateway operations, `delete_folder` catches no
provider error and returns no success flag: a `ClientError` raised by the
second `delete_objects` call propagates to the caller while the keys
deleted by the first batch stay deleted, a matching key beyond the first
page remaining — the operation is not atomic on error. -/
theorem delete_folder_error_propagates_midway (st : Store) (pre : String) (n : Nat)
    (e : ClientError) (hnodup : st.Nodup) (hn : 0 < n)
    (hlen : n < (st.filter (fun k => keyStartsWith pre k)).length) :
    (delete_folder [none, some e] n st pre).1 = some e ∧
    (delete_folder [none, some e] n st pre).2.2
      = [(st.filter (fun k => keyStartsWith pre k)).take n] ∧
    (∀ k ∈ (st.filter (fun k => keyStartsWith pre k)).take n,
      k ∉ (delete_folder [none, some e] n st pre).2.1) ∧
    (st.filter (fun k => keyStartsWith pre k)).get ⟨n, hlen⟩
        ∈ (delete_folder [none, some e] n st pre).2.1 ∧
    keyStartsWith pre ((st.filter (fun k => keyStartsWith pre k)).get ⟨n, hlen⟩) = true := by
  obtain ⟨a, l, hm⟩ : ∃ a l, st.filter (fun k => keyStartsWith pre k) = a :: l := by
    cases hm : st.filter (fun k => keyStartsWith pre k) with
    | nil => rw [hm] at hlen; simp at hlen
    | cons a l => exact ⟨a, l, rfl⟩
  have hlen2 : n < (a :: l).length := hm ▸ hlen
  obtain ⟨b, l2, hdrop⟩ : ∃ b l2, l.drop (n - 1) = b :: l2 := by
    cases hd : l.drop (n - 1) with
    | nil =>
      rw [List.drop_eq_nil_iff] at hd
      simp only [List.length_cons] at hlen2
      omega
    | cons b l2 => exact ⟨b, l2, rfl⟩
  have hp1ne : ¬ ((a :: l).take n = []) := by
    rw [List.take_eq_nil_iff]
    rintro (h | h)
    · omega
    · simp at h
  have hp2ne : ¬ ((b :: l2).take n = []) := by
    rw [List.take_eq_nil_iff]
    rintro (h | h)
    · omega
    · simp at h
  have hgo : delete_folder [none, some e] n st pre
      = (some e, deleteObjectsBatch st ((a :: l).take n), [(a :: l).take n]) := by
    unfold delete_folder
    rw [hm, chunkList_cons, hdrop, chunkList_cons,
      deleteFolderGo_cons_ne _ _ _ _ _ hp1ne]
    show deleteFolderGo [some e] ((b :: l2).take n :: chunkList n (l2.drop (n - 1)))
        (deleteObjectsBatch st ((a :: l).take n)) ([] ++ [(a :: l).take n]) = _
    rw [deleteFolderGo_cons_ne _ _ _ _ _ hp2ne]
    rfl
  have hKmem : (st.filter (fun k => keyStartsWith pre k)).get ⟨n, hlen⟩
      ∈ st.filter (fun k => keyStartsWith pre k) := List.get_mem _ _ _
  refine ⟨by rw [hgo], by rw [hgo, hm], ?_, ?_, List.of_mem_filter hKmem⟩
  · intro k hk
    rw [hgo]
    show k ∉ deleteObjectsBatch st ((a :: l).take n)
    intro hcontra
    have := List.of_mem_filter hcontra
    rw [decide_eq_true_eq] at this
    rw [hm] at hk
    exact this hk
  · rw [hgo]
    show (st.filter (fun k => keyStartsWith pre k)).get ⟨n, hlen⟩
        ∈ deleteObjectsBatch st ((a :: l).take n)
    have hKst : (st.filter (fun k => keyStartsWith pre k)).get ⟨n, hlen⟩ ∈ st :=
      List.mem_of_mem_filter hKmem
    have hmnodup : (st.filter (fun k => keyStartsWith pre k)).Nodup := hnodup.filter _
    have happ : ((st.filter (fun k => keyStartsWith pre k)).take n
        ++ (st.filter (fun k => keyStartsWith pre k)).drop n).Nodup := by
      rw [List.take_append_drop]
      exact hmnodup
    have hdisj := (List.nodup_append.mp happ).2.2
    have h0 : 0 < ((st.filter (fun k => keyStartsWith pre k)).drop n).length := by
      rw [List.length_drop]
      omega
    have hKdrop : (st.filter (fun k => keyStartsWith pre k)).get ⟨n, hlen⟩
        ∈ (st.filter (fun k => keyStartsWith pre k)).drop n := by
      have heq : ((st.filter (fun k => keyStartsWith pre k)).drop n).get ⟨0, h0⟩
          = (st.filter (fun k => keyStartsWith pre k)).get ⟨n, hlen⟩ := by
        simp [List.get_eq_getElem, List.getElem_drop]
      rw [← heq]
      exact List.get_mem _ _ _
    have hKnotake : (st.filter (fun k => keyStartsWith pre k)).get ⟨n, hlen⟩
        ∉ (st.filter (fun k => keyStartsWith pre k)).take n :=
      fun htake => hdisj htake hKdrop
    apply List.mem_filter.mpr
    refine ⟨hKst, ?_⟩
    rw [decide_eq_true_eq, ← hm]
    exact hKnotake

/-- Witness for C10 at a concrete two-key store with page size 1 and a
fault injected on the second bulk-delete call. -/
theorem delete_folder_error_propagates_midway_witness :
    (delete_folder [none, some ClientError.transient] 1 ["a/1", "a/2"] "a/").1
      = some ClientError.transient :=
  (delete_folder_error_propagates_midway ["a/1", "a/2"] "a/" 1 ClientError.transient
    (by decide) (by decide) (by decide)).1
